import Mathlib

/-!
Verification development for the step-segment scheduling and execution engine of
the RepRapFirmware movement core (src/Movement/Move.cpp, Move.h, MoveSegment.cpp).

The C++ code is shallowly embedded:
* 32-bit machine integers become Nat, with wraparound handled by explicit
  reductions modulo 2 ^ 32; the signed reinterpretation used by the firmware for
  step-time comparisons is the function toI32 below.
* The singly linked active list of DriveMovement objects (linked through the
  nextDM pointer) becomes a Lean list of arena indices into the dms array,
  which itself becomes a function from indices to DriveMovement records.
* Code that is not part of the supplied sources (DriveMovement.h internals,
  StepTimer, the input shaper, CheckEndstops) enters either as an oracle
  parameter, so theorems hold for every possible behaviour of that code, or as
  a definition explicitly modelled from the specification text.
-/

/-- Reinterpret an integer as a signed 32-bit value: the unique integer in
the interval from -2^31 to 2^31 - 1 congruent to the input modulo 2^32.
This is the meaning of a C cast to int32_t of a uint32_t difference. -/
def toI32 (x : Int) : Int := (x + 2 ^ 31) % 2 ^ 32 - 2 ^ 31

/-- The due test of Move.StepDrivers, line 1859 of Move.cpp:
a step is due when (int32_t)(now - nextStepTime) >= 0. -/
def stepDue (now t : Nat) : Bool := decide (0 ≤ toI32 ((now : Int) - (t : Int)))

/-- The ordering test of Move.InsertDM, line 474 of Move.h:
(int32_t)(existing->nextStepTime - dm->nextStepTime) < 0. -/
def stepTimeLess (a b : Nat) : Bool := decide (toI32 ((a : Int) - (b : Int)) < 0)

/-- The non-strict companion of stepTimeLess, used to state that the active
list is non-decreasing in nextStepTime under the wraparound comparison. -/
def stepTimeLE (a b : Nat) : Prop := toI32 ((a : Int) - (b : Int)) ≤ 0

instance (a b : Nat) : Decidable (stepTimeLE a b) :=
  inferInstanceAs (Decidable (toI32 ((a : Int) - (b : Int)) ≤ 0))

/-- Modelled from the spec: DriveMovement.h is not among the supplied sources.
The spec describes the per-drive state enum as idle plus various active states,
and Move.cpp distinguishes three classes: idle, states at or above
firstMotionState (valid motion states), and the remaining states, which the
scheduler treats as step errors.  We model exactly these three classes. -/
inductive DMState
  | idle
  | fault
  | motion
deriving DecidableEq, Repr

/-- Modelled from the spec: MovementFlags lives in a header that is not among
the supplied sources.  Move.cpp only inspects the checkEndstops bit after
OR-ing the flags of all due drives, so we model that single bit; the OR of the
remaining bits is irrelevant to the embedded code. -/
structure MovementFlags where
  checkEndstops : Bool
deriving DecidableEq, Repr

/-- Bitwise OR on movement flags, as used by flags |= dm->segmentFlags. -/
def MovementFlags.or (a b : MovementFlags) : MovementFlags :=
  ⟨a.checkEndstops || b.checkEndstops⟩

/-- The cleared flags produced by flags.Clear() at the top of StepDrivers. -/
def MovementFlags.clear : MovementFlags := ⟨false⟩

/-- The fields of a DriveMovement that the embedded Move.cpp code reads or
writes: the logical drive number, the time of the next step, the state class,
the segment flags, and the direction pair used when reinserting a stepped
drive.  Pointer identity of the C++ objects is the arena index under which the
record is stored, not part of the record itself. -/
structure DriveMovement where
  drive : Nat
  nextStepTime : Nat
  state : DMState
  segmentFlags : MovementFlags
  direction : Bool
  directionChanged : Bool
deriving DecidableEq, Repr

/-- The scheduler state of the Move object: the arena of DriveMovement slots,
the active list (indices linked through nextDM, head first), and the
diagnostic step-error counter. -/
structure MoveSched where
  dms : Nat → DriveMovement
  activeDMs : List Nat
  stepErrors : Nat

/-- Move.InsertDM, Move.h lines 471-480: walk the active list while the
existing entry is strictly earlier than the new drive under the wraparound
comparison, and link the new drive in front of the first entry that is not. -/
def insertDM (dms : Nat → DriveMovement) (dm : Nat) : List Nat → List Nat
  | [] => [dm]
  | j :: rest =>
    if stepTimeLess (dms j).nextStepTime (dms dm).nextStepTime then
      j :: insertDM dms dm rest
    else
      dm :: j :: rest

/-- The active-list ordering invariant: traversed head to tail, nextStepTime is
non-decreasing under the wraparound-signed comparison. -/
def sortedActive (dms : Nat → DriveMovement) (l : List Nat) : Prop :=
  l.Chain' (fun a b => stepTimeLE (dms a).nextStepTime (dms b).nextStepTime)

instance (dms : Nat → DriveMovement) (l : List Nat) : Decidable (sortedActive dms l) :=
  inferInstanceAs
    (Decidable (l.Chain' fun a b => stepTimeLE (dms a).nextStepTime (dms b).nextStepTime))

lemma stepTimeLE_of_less {a b : Nat} (h : stepTimeLess a b = true) : stepTimeLE a b := by
  simp only [stepTimeLess, decide_eq_true_eq] at h
  exact le_of_lt h

lemma stepTimeLE_of_not_less {a b : Nat} (h : stepTimeLess a b = false) : stepTimeLE b a := by
  simp only [stepTimeLess, decide_eq_false_iff_not, not_lt] at h
  unfold stepTimeLE
  unfold toI32 at h ⊢
  omega

lemma stepTimeLess_of_eq {a b : Nat} (h : a = b) : stepTimeLess a b = false := by
  subst h
  simp only [stepTimeLess, decide_eq_false_iff_not, not_lt]
  unfold toI32
  omega

/-- Structure of an insertion: the output is the input split at the first entry
not strictly earlier than the new drive, with the new drive linked in between;
every entry of the untouched prefix is strictly earlier than the new drive. -/
lemma insertDM_split (dms : Nat → DriveMovement) (dm : Nat) (l : List Nat) :
    ∃ p s, l = p ++ s ∧ insertDM dms dm l = p ++ dm :: s ∧
      ∀ j ∈ p, stepTimeLess (dms j).nextStepTime (dms dm).nextStepTime = true := by
  induction l with
  | nil => exact ⟨[], [], rfl, rfl, by simp⟩
  | cons j rest ih =>
    by_cases h : stepTimeLess (dms j).nextStepTime (dms dm).nextStepTime = true
    · obtain ⟨p, s, hsplit, hres, hall⟩ := ih
      refine ⟨j :: p, s, by simp [hsplit], ?_, ?_⟩
      · simp [insertDM, h, hres]
      · intro x hx
        rcases List.mem_cons.mp hx with hx | hx
        · exact hx ▸ h
        · exact hall x hx
    · refine ⟨[], j :: rest, rfl, ?_, by simp⟩
      simp only [Bool.not_eq_true] at h
      simp [insertDM, h]

lemma insertDM_perm (dms : Nat → DriveMovement) (dm : Nat) (l : List Nat) :
    (insertDM dms dm l).Perm (dm :: l) := by
  obtain ⟨p, s, hsplit, hres, -⟩ := insertDM_split dms dm l
  rw [hres, hsplit]
  exact List.perm_middle

lemma mem_insertDM {dms : Nat → DriveMovement} {dm x : Nat} {l : List Nat} :
    x ∈ insertDM dms dm l ↔ x = dm ∨ x ∈ l := by
  rw [(insertDM_perm dms dm l).mem_iff]
  simp

lemma insertDM_head (dms : Nat → DriveMovement) (dm : Nat) (l : List Nat) :
    (insertDM dms dm l).head? = some dm ∨ (insertDM dms dm l).head? = l.head? := by
  cases l with
  | nil => left; rfl
  | cons j rest =>
    by_cases h : stepTimeLess (dms j).nextStepTime (dms dm).nextStepTime = true
    · right; simp [insertDM, h]
    · left
      simp only [Bool.not_eq_true] at h
      simp [insertDM, h]

/-- Inserting into a sorted active list keeps it sorted. -/
lemma insertDM_sorted {dms : Nat → DriveMovement} (dm : Nat) {l : List Nat}
    (hs : sortedActive dms l) : sortedActive dms (insertDM dms dm l) := by
  induction l with
  | nil => simp [insertDM, sortedActive]
  | cons j rest ih =>
    by_cases h : stepTimeLess (dms j).nextStepTime (dms dm).nextStepTime = true
    · have hrest : sortedActive dms rest := (List.chain'_cons'.mp hs).2
      have hins := ih hrest
      simp only [insertDM, h, if_true]
      refine List.chain'_cons'.mpr ⟨?_, hins⟩
      intro y hy
      rcases insertDM_head dms dm rest with hh | hh
      · rw [hh] at hy
        have hydm : dm = y := by simpa using hy
        subst hydm
        exact stepTimeLE_of_less h
      · rw [hh] at hy
        exact (List.chain'_cons'.mp hs).1 y hy
    · simp only [Bool.not_eq_true] at h
      simp only [insertDM, h, Bool.false_eq_true, if_false]
      exact List.chain'_cons'.mpr ⟨fun y hy => by
        have hyj : j = y := by simpa using hy
        subst hyj
        exact stepTimeLE_of_not_less h, hs⟩

/-- Claim C1.  Active-list ordering invariant of Move.InsertDM: for a sorted
active list, insertion splits the old list at the unique position where every
earlier entry is strictly earlier in wraparound step-time order and links the
new drive there; in particular no entry placed before the new drive has an
equal nextStepTime, so the new drive goes before every existing entry with the
same step time.  The result contains exactly the old entries plus the new
drive, and is again sorted, so the active list traversed head to tail stays
non-decreasing in nextStepTime. -/
theorem insertDM_ordering_invariant (dms : Nat → DriveMovement) (dm : Nat)
    (l : List Nat) (hs : sortedActive dms l) :
    (∃ p s, l = p ++ s ∧ insertDM dms dm l = p ++ dm :: s ∧
        (∀ j ∈ p, stepTimeLess (dms j).nextStepTime (dms dm).nextStepTime = true) ∧
        (∀ j ∈ p, (dms j).nextStepTime ≠ (dms dm).nextStepTime)) ∧
      (insertDM dms dm l).Perm (dm :: l) ∧
      sortedActive dms (insertDM dms dm l) := by
  refine ⟨?_, insertDM_perm dms dm l, insertDM_sorted dm hs⟩
  obtain ⟨p, s, hsplit, hres, hall⟩ := insertDM_split dms dm l
  refine ⟨p, s, hsplit, hres, hall, ?_⟩
  intro j hj heq
  have := hall j hj
  rw [stepTimeLess_of_eq heq] at this
  exact Bool.false_ne_true this

/-- Witness for the C1 theorem: a concrete sorted active list with a tie.
Drive 1 has the same nextStepTime as drive 2, and insertion places it after
drive 0 (earlier time) and before drive 2 (equal time). -/
def dmsWitness : Nat → DriveMovement := fun i =>
  { drive := i
    nextStepTime := if i = 0 then 10 else 20
    state := DMState.motion
    segmentFlags := MovementFlags.clear
    direction := false
    directionChanged := false }

theorem insertDM_ordering_invariant_witness :
    sortedActive dmsWitness [0, 2] ∧
      ((∃ p s, [0, 2] = p ++ s ∧ insertDM dmsWitness 1 [0, 2] = p ++ 1 :: s ∧
          (∀ j ∈ p, stepTimeLess (dmsWitness j).nextStepTime (dmsWitness 1).nextStepTime = true) ∧
          (∀ j ∈ p, (dmsWitness j).nextStepTime ≠ (dmsWitness 1).nextStepTime)) ∧
        (insertDM dmsWitness 1 [0, 2]).Perm (1 :: [0, 2]) ∧
        sortedActive dmsWitness (insertDM dmsWitness 1 [0, 2])) :=
  ⟨by simp only [sortedActive, List.chain'_cons, List.chain'_singleton, and_true]; decide,
    insertDM_ordering_invariant dmsWitness 1 [0, 2]
      (by simp only [sortedActive, List.chain'_cons, List.chain'_singleton, and_true]; decide)⟩

/-- Claim C9.  Wraparound-safe time comparison: the due test of StepDrivers and
the ordering test of InsertDM, both computed on the 32-bit movement clock
(times reduced modulo 2^32), agree with the true unbounded comparisons as long
as the true difference of the compared times is under 2^31 ticks. -/
theorem wraparound_comparisons_correct (now t : Nat)
    (h1 : (now : Int) - (t : Int) < 2 ^ 31) (h2 : (t : Int) - (now : Int) < 2 ^ 31) :
    (stepDue (now % 2 ^ 32) (t % 2 ^ 32) = true ↔ t ≤ now) ∧
      (stepTimeLess (t % 2 ^ 32) (now % 2 ^ 32) = true ↔ t < now) := by
  constructor
  · simp only [stepDue, decide_eq_true_eq]
    unfold toI32
    omega
  · simp only [stepTimeLess, decide_eq_true_eq]
    unfold toI32
    omega

/-- Witness for the C9 theorem: clock times either side of the 32-bit
wraparound boundary, whose true difference is 20 ticks.  The modular due and
ordering tests both see through the wrap. -/
theorem wraparound_comparisons_correct_witness :
    ((4294967306 : Int) - 4294967286 < 2 ^ 31 ∧ (4294967286 : Int) - 4294967306 < 2 ^ 31) ∧
      ((stepDue (4294967306 % 2 ^ 32) (4294967286 % 2 ^ 32) = true ↔ 4294967286 ≤ 4294967306) ∧
        (stepTimeLess (4294967286 % 2 ^ 32) (4294967306 % 2 ^ 32) = true ↔
          4294967286 < 4294967306)) :=
  ⟨⟨by decide, by decide⟩,
    wraparound_comparisons_correct 4294967306 4294967286 (by decide) (by decide)⟩

/-- Move.DeactivateDM loop, Move.cpp lines 1708-1722: walk the active list
looking for the drive to remove; on a match, unlink it, set its state to idle
and stop.  The Bool records whether a match was found. -/
def deactivateLoop (t : Nat) : List Nat → List Nat × Bool
  | [] => ([], false)
  | j :: rest =>
    if j = t then (rest, true)
    else
      let r := deactivateLoop t rest
      (j :: r.1, r.2)

/-- Move.DeactivateDM: the list surgery plus the state write to the removed
drive.  The dm state is only written when the walk actually found the drive,
because the state assignment sits inside the matching branch of the loop. -/
def deactivateDM (σ : MoveSched) (t : Nat) : MoveSched :=
  let r := deactivateLoop t σ.activeDMs
  { dms :=
      if r.2 then Function.update σ.dms t { σ.dms t with state := DMState.idle } else σ.dms
    activeDMs := r.1
    stepErrors := σ.stepErrors }

lemma deactivateLoop_mem {t : Nat} {l : List Nat} (h : t ∈ l) :
    ∃ p s, l = p ++ t :: s ∧ t ∉ p ∧ deactivateLoop t l = (p ++ s, true) := by
  induction l with
  | nil => cases h
  | cons j rest ih =>
    by_cases hj : j = t
    · subst hj
      exact ⟨[], rest, rfl, by simp, by simp [deactivateLoop]⟩
    · have hrest : t ∈ rest := by
        rcases List.mem_cons.mp h with h' | h'
        · exact absurd h'.symm hj
        · exact h'
      obtain ⟨p, s, hsplit, hnp, hloop⟩ := ih hrest
      refine ⟨j :: p, s, by simp [hsplit], ?_, ?_⟩
      · intro hc
        rcases List.mem_cons.mp hc with hc | hc
        · exact hj hc.symm
        · exact hnp hc
      · simp [deactivateLoop, hj, hloop]

/-- Counterexample to claim C7 as stated: the C7 universal ranges over every
DriveMovement passed to Move.DeactivateDM, but when the drive is not in the
active list the loop falls off the end without executing the state assignment,
so the drive is not forced to idle.  Concretely, with an empty active list,
drive 5 keeps its motion state after the call. -/
theorem deactivateDM_not_in_list_keeps_state :
    ((deactivateDM { dms := dmsWitness, activeDMs := [], stepErrors := 0 } 5).dms 5).state ≠
      DMState.idle := by
  decide

/-- Claim C7, amended: for every DriveMovement that is in the active list,
Move.DeactivateDM removes its first occurrence, forces exactly that drive to
DMState.idle, and leaves every other drive in the active list in its previous
relative order with its DriveMovement record unchanged. -/
theorem deactivateDM_removes_and_idles (σ : MoveSched) (t : Nat)
    (hmem : t ∈ σ.activeDMs) (hnd : σ.activeDMs.Nodup) :
    (∃ p s, σ.activeDMs = p ++ t :: s ∧ (deactivateDM σ t).activeDMs = p ++ s) ∧
      t ∉ (deactivateDM σ t).activeDMs ∧
      ((deactivateDM σ t).dms t).state = DMState.idle ∧
      (∀ j, j ≠ t → (deactivateDM σ t).dms j = σ.dms j) ∧
      (deactivateDM σ t).stepErrors = σ.stepErrors := by
  obtain ⟨p, s, hsplit, hnp, hloop⟩ := deactivateLoop_mem hmem
  have hnotin : t ∉ p ++ s := by
    rw [hsplit] at hnd
    have hts : (t :: s).Nodup := hnd.of_append_right
    intro hc
    rcases List.mem_append.mp hc with hc | hc
    · exact hnp hc
    · exact (List.nodup_cons.mp hts).1 hc
  refine ⟨⟨p, s, hsplit, by simp [deactivateDM, hloop]⟩, ?_, ?_, ?_, ?_⟩
  · simpa [deactivateDM, hloop] using hnotin
  · simp [deactivateDM, hloop, Function.update_same]
  · intro j hj
    simp [deactivateDM, hloop, Function.update_noteq hj]
  · simp [deactivateDM]

/-- Witness for the amended C7 theorem on a concrete three-entry active list. -/
theorem deactivateDM_removes_and_idles_witness :
    ((1 : Nat) ∈ [0, 1, 2] ∧ ([0, 1, 2] : List Nat).Nodup) ∧
      ((∃ p s, ([0, 1, 2] : List Nat) = p ++ 1 :: s ∧
          (deactivateDM { dms := dmsWitness, activeDMs := [0, 1, 2], stepErrors := 0 } 1).activeDMs
            = p ++ s) ∧
        (1 : Nat) ∉
          (deactivateDM { dms := dmsWitness, activeDMs := [0, 1, 2], stepErrors := 0 } 1).activeDMs ∧
        ((deactivateDM { dms := dmsWitness, activeDMs := [0, 1, 2], stepErrors := 0 } 1).dms 1).state
          = DMState.idle ∧
        (∀ j, j ≠ 1 →
          (deactivateDM { dms := dmsWitness, activeDMs := [0, 1, 2], stepErrors := 0 } 1).dms j
            = dmsWitness j) ∧
        (deactivateDM { dms := dmsWitness, activeDMs := [0, 1, 2], stepErrors := 0 } 1).stepErrors
          = 0) :=
  ⟨⟨by decide, by decide⟩,
    deactivateDM_removes_and_idles { dms := dmsWitness, activeDMs := [0, 1, 2], stepErrors := 0 } 1
      (by decide) (by decide)⟩

/-- Modelled from the spec where MoveSegment.h is missing: a pool node has a
next pointer (an optional reference to another segment) and its remaining
storage, abstracted as a payload; the constructor called by Allocate builds a
fresh node whose next pointer is the supplied argument. -/
structure SegNode where
  next : Option Nat
  payload : Nat
deriving DecidableEq, Repr

/-- The static state of the MoveSegment pool: the free list and the diagnostic
creation counter numCreated (MoveSegment.cpp lines 12-13). -/
structure SegPool where
  freeList : List SegNode
  numCreated : Nat
deriving DecidableEq, Repr

/-- MoveSegment.Allocate, MoveSegment.cpp lines 16-33: pop the free-list head
and point it at the supplied next segment, or construct a new node (whose
constructor links it before the supplied segment) and bump numCreated. -/
def allocateSeg (pnext : Option Nat) (s : SegPool) : SegNode × SegPool :=
  match s.freeList with
  | ms :: rest => ({ ms with next := pnext }, { freeList := rest, numCreated := s.numCreated })
  | [] =>
    ({ next := pnext, payload := 0 }, { freeList := [], numCreated := s.numCreated + 1 })

/-- Claim C8.  Segment pool allocation never fails and transfers ownership:
Allocate always returns a segment (the embedding is a total function) whose
next pointer is the supplied argument; with a non-empty free list it returns
the former head with only its next pointer rewritten, removes it from the free
list and leaves numCreated unchanged; with an empty free list it constructs a
fresh node and increments numCreated by one. -/
theorem allocateSeg_spec (pnext : Option Nat) (s : SegPool) :
    ((allocateSeg pnext s).1).next = pnext ∧
      (∀ m rest, s.freeList = m :: rest →
        (allocateSeg pnext s).1 = { m with next := pnext } ∧
          (allocateSeg pnext s).2.freeList = rest ∧
          (allocateSeg pnext s).2.numCreated = s.numCreated) ∧
      (s.freeList = [] →
        (allocateSeg pnext s).2.numCreated = s.numCreated + 1 ∧
          (allocateSeg pnext s).2.freeList = []) := by
  rcases hf : s.freeList with - | ⟨m, rest⟩ <;>
    simp [allocateSeg, hf]

/-- Witness for the C8 theorem: allocation from a one-element free list. -/
theorem allocateSeg_spec_witness :
    ((allocateSeg (some 3) { freeList := [{ next := none, payload := 7 }], numCreated := 5 }).1).next
        = some 3 ∧
      (∀ m rest,
        ([{ next := none, payload := 7 }] : List SegNode) = m :: rest →
        (allocateSeg (some 3) { freeList := [{ next := none, payload := 7 }], numCreated := 5 }).1
            = { m with next := some 3 } ∧
          (allocateSeg (some 3)
              { freeList := [{ next := none, payload := 7 }], numCreated := 5 }).2.freeList = rest ∧
          (allocateSeg (some 3)
              { freeList := [{ next := none, payload := 7 }], numCreated := 5 }).2.numCreated = 5) ∧
      (([{ next := none, payload := 7 }] : List SegNode) = [] →
        (allocateSeg (some 3)
            { freeList := [{ next := none, payload := 7 }], numCreated := 5 }).2.numCreated = 6 ∧
          (allocateSeg (some 3)
              { freeList := [{ next := none, payload := 7 }], numCreated := 5 }).2.freeList = []) :=
  allocateSeg_spec (some 3) { freeList := [{ next := none, payload := 7 }], numCreated := 5 }

/-- Move.GetAccumulatedExtrusion, Move.cpp lines 1510-1518, as a function of
the accumulator word and the net steps taken by the drive in its current move:
it returns the sum and rebases the accumulator to the negated net count. -/
def getAccumulatedExtrusion (acc net : Int) : Int × Int := (acc + net, -net)

/-- Events touching one logical drive's extrusion accounting.  The steps event
is the ISR taking k more (signed) steps within the current move, so the value
of GetNetStepsTaken changes by k; moveCompleted is the ISR folding the
finished move's net steps into the accumulator, modelled from the spec and
from the comment inside GetAccumulatedExtrusion about a move completing and
the ISR updating the movement accumulators (the folding code itself lives
outside the supplied sources); readAccumulator is a call to
Move.GetAccumulatedExtrusion. -/
inductive ExtrusionEvent
  | steps (k : Int)
  | moveCompleted
  | readAccumulator

/-- Ghost-instrumented accounting state for one drive: the accumulator word,
the current net step count, the sum of all values returned by reads so far,
and the total number of steps ever taken (a ghost quantity used to state that
no step is counted twice and none is lost). -/
structure ExtrusionTrack where
  acc : Int
  net : Int
  returned : Int
  total : Int
deriving DecidableEq, Repr

/-- One accounting transition. -/
def stepExtrusion (s : ExtrusionTrack) : ExtrusionEvent → ExtrusionTrack
  | ExtrusionEvent.steps k => { s with net := s.net + k, total := s.total + k }
  | ExtrusionEvent.moveCompleted => { s with acc := s.acc + s.net, net := 0 }
  | ExtrusionEvent.readAccumulator =>
    let r := getAccumulatedExtrusion s.acc s.net
    { s with acc := r.2, returned := s.returned + r.1 }

/-- Run a sequence of events from the reset state (Move.Init zeroes the
movement accumulators, Move.cpp line 267). -/
def runExtrusion (evs : List ExtrusionEvent) : ExtrusionTrack :=
  evs.foldl stepExtrusion { acc := 0, net := 0, returned := 0, total := 0 }

lemma stepExtrusion_invariant {s : ExtrusionTrack} (e : ExtrusionEvent)
    (h : s.returned + s.acc + s.net = s.total) :
    (stepExtrusion s e).returned + (stepExtrusion s e).acc + (stepExtrusion s e).net
      = (stepExtrusion s e).total := by
  cases e <;> simp [stepExtrusion, getAccumulatedExtrusion] <;> omega

lemma foldl_stepExtrusion_invariant (evs : List ExtrusionEvent) :
    ∀ s : ExtrusionTrack, s.returned + s.acc + s.net = s.total →
      (evs.foldl stepExtrusion s).returned + (evs.foldl stepExtrusion s).acc
          + (evs.foldl stepExtrusion s).net
        = (evs.foldl stepExtrusion s).total := by
  induction evs with
  | nil => exact fun s h => h
  | cons e rest ih =>
    intro s h
    exact ih (stepExtrusion s e) (stepExtrusion_invariant e h)

/-- Claim C10.  Read-and-reset accumulator: GetAccumulatedExtrusion returns
accumulator plus net steps taken and rebases the accumulator to the negated
net count; an immediately following call with no intervening steps returns 0;
and over any sequence of step, move-completion and read events starting from
the reset state, the values returned by the reads sum to the total steps
accumulated minus the part not yet read (held as acc + net), so no step is
counted twice and none is lost. -/
theorem getAccumulatedExtrusion_read_and_reset :
    (∀ acc net : Int, getAccumulatedExtrusion acc net = (acc + net, -net)) ∧
      (∀ acc net : Int,
        (getAccumulatedExtrusion (getAccumulatedExtrusion acc net).2 net).1 = 0) ∧
      (∀ evs : List ExtrusionEvent,
        (runExtrusion evs).returned + (runExtrusion evs).acc + (runExtrusion evs).net
          = (runExtrusion evs).total) := by
  refine ⟨fun acc net => rfl, fun acc net => by simp [getAccumulatedExtrusion], fun evs => ?_⟩
  exact foldl_stepExtrusion_invariant evs _ (by simp)

/-- Hardware-visible events of one StepDrivers invocation, in program order:
the endstop check call-out, the step pins of a driver set going high then low,
and a direction line change (Move.SetDirection) for a drive about to be
reinserted.  Busy-wait timing refinements around these events are real-time
behaviour and are not modelled. -/
inductive StepEvent
  | endstopCheck
  | stepHigh (drivers : Finset Nat)
  | stepLow (drivers : Finset Nat)
  | setDirection (drive : Nat) (dir : Bool)
deriving DecidableEq

/-- The due sub-list: the walk at the top of StepDrivers stops at the first
drive whose next step is not yet due, so the due set is the longest prefix of
the active list all of whose entries are due. -/
def dueOf (dms : Nat → DriveMovement) (now : Nat) (l : List Nat) : List Nat :=
  l.takeWhile fun i => stepDue now (dms i).nextStepTime

/-- The OR of the segment flags of the listed drives, as accumulated by
flags |= dm->segmentFlags during the due walk. -/
def flagsOf (dms : Nat → DriveMovement) (l : List Nat) : MovementFlags :=
  l.foldl (fun f i => f.or (dms i).segmentFlags) MovementFlags.clear

/-- The driver bitmap accumulated by driversStepping |= GetDriversBitmap over
the listed drives; bitmaps are modelled as finite sets of physical drivers,
with bmp giving the bitmap of each logical drive. -/
def driversOf (bmp : Nat → Finset Nat) (dms : Nat → DriveMovement) (l : List Nat) : Finset Nat :=
  l.foldl (fun s i => s ∪ bmp (dms i).drive) ∅

/-- The first phase of Move.StepDrivers (Move.cpp lines 1855-1883): collect
the due prefix and OR the flags; if the combined flags request endstop
checking, call CheckEndstops (the oracle ces, which may remove drives from
the active list and change DM fields) and recompute the due prefix from the
possibly modified list with a freshly read clock now2.  Returns the state to
continue with, the due prefix actually used, and the events so far. -/
def stepDriversDue (ces : MoveSched → MoveSched) (now now2 : Nat) (σ : MoveSched) :
    MoveSched × List Nat × List StepEvent :=
  let due := dueOf σ.dms now σ.activeDMs
  if (flagsOf σ.dms due).checkEndstops then
    let σ1 := ces σ
    (σ1, dueOf σ1.dms now2 σ1.activeDMs, [StepEvent.endstopCheck])
  else
    (σ, due, [])

/-- The CalcNextStepTime loop of StepDrivers: apply the per-drive step-time
oracle to every drive of the due prefix, in list order. -/
def updateDms (dms : Nat → DriveMovement) (l : List Nat)
    (calcNext : DriveMovement → DriveMovement) : Nat → DriveMovement :=
  l.foldl (fun f i => Function.update f i (calcNext (f i))) dms

/-- One iteration of the reinsertion loop at the end of StepDrivers
(Move.cpp lines 1954-1972): a drive in a valid motion state has a pending
direction change honoured and is reinserted in step-time order; a drive in a
state that is neither idle nor a motion state counts a step error and is
forced idle; an idle drive is dropped silently. -/
def processDM (σ : MoveSched) (i : Nat) : MoveSched × List StepEvent :=
  if (σ.dms i).state = DMState.motion then
    let dm := σ.dms i
    if dm.directionChanged then
      let dms' := Function.update σ.dms i { dm with directionChanged := false }
      ({ dms := dms', activeDMs := insertDM dms' i σ.activeDMs, stepErrors := σ.stepErrors },
        [StepEvent.setDirection dm.drive dm.direction])
    else
      ({ dms := σ.dms, activeDMs := insertDM σ.dms i σ.activeDMs,
         stepErrors := σ.stepErrors }, [])
  else if (σ.dms i).state ≠ DMState.idle then
    ({ dms := Function.update σ.dms i { σ.dms i with state := DMState.idle },
       activeDMs := σ.activeDMs, stepErrors := σ.stepErrors + 1 }, [])
  else (σ, [])

/-- The whole reinsertion loop over the removed due chain, head first. -/
def reinsertChain (σ : MoveSched) : List Nat → MoveSched × List StepEvent
  | [] => (σ, [])
  | i :: rest =>
    let r := processDM σ i
    let r2 := reinsertChain r.1 rest
    (r2.1, r.2 ++ r2.2)

/-- Move.StepDrivers (generic branch, Move.cpp lines 1853-1973): collect the
due prefix and flags, possibly check endstops and recompute the due set, mask
the stepping bitmap with the enabled drivers, pulse the step pins high,
compute next step times for the due drives, pulse the pins low, then unlink
the due chain and reinsert each drive. -/
def stepDrivers (bmp : Nat → Finset Nat) (enabled : Finset Nat) (ces : MoveSched → MoveSched)
    (calcNext : DriveMovement → DriveMovement) (now now2 : Nat) (σ : MoveSched) :
    MoveSched × List StepEvent :=
  let pre := stepDriversDue ces now now2 σ
  let σ1 := pre.1
  let due := pre.2.1
  let driversStepping := driversOf bmp σ1.dms due ∩ enabled
  let dms2 := updateDms σ1.dms due calcNext
  let r := reinsertChain
    { dms := dms2, activeDMs := σ1.activeDMs.drop due.length, stepErrors := σ1.stepErrors } due
  (r.1, pre.2.2 ++ StepEvent.stepHigh driversStepping :: StepEvent.stepLow driversStepping :: r.2)

lemma takeWhile_maximal (p : Nat → Bool) (l : List Nat) :
    l.takeWhile p ++ l.drop (l.takeWhile p).length = l ∧
      (∀ i ∈ l.takeWhile p, p i = true) ∧
      (∀ x, (l.drop (l.takeWhile p).length).head? = some x → p x = false) := by
  induction l with
  | nil => exact ⟨rfl, by simp, by simp⟩
  | cons a l ih =>
    by_cases h : p a = true
    · refine ⟨?_, ?_, ?_⟩
      · simp [List.takeWhile_cons, h, ih.1]
      · intro i hi
        rw [List.takeWhile_cons, if_pos h] at hi
        rcases List.mem_cons.mp hi with hi | hi
        · exact hi ▸ h
        · exact ih.2.1 i hi
      · intro x hx
        rw [List.takeWhile_cons, if_pos h] at hx
        simp only [List.length_cons, List.drop_succ_cons] at hx
        exact ih.2.2 x hx
    · simp only [Bool.not_eq_true] at h
      refine ⟨?_, ?_, ?_⟩
      · simp [List.takeWhile_cons, h]
      · intro i hi
        rw [List.takeWhile_cons, if_neg (by simp [h])] at hi
        cases hi
      · intro x hx
        rw [List.takeWhile_cons, if_neg (by simp [h])] at hx
        simp only [List.length_nil, List.drop_zero, List.head?_cons, Option.some.injEq] at hx
        exact hx ▸ h

lemma driversOf_aux (bmp : Nat → Finset Nat) (dms : Nat → DriveMovement) (l : List Nat) :
    ∀ (acc : Finset Nat) (x : Nat),
      x ∈ l.foldl (fun s i => s ∪ bmp (dms i).drive) acc ↔
        x ∈ acc ∨ ∃ i ∈ l, x ∈ bmp (dms i).drive := by
  induction l with
  | nil => simp
  | cons a l ih =>
    intro acc x
    simp only [List.foldl_cons, ih, Finset.mem_union, List.mem_cons]
    constructor
    · rintro (⟨h | h⟩ | ⟨i, hi, h⟩)
      · exact Or.inl h
      · exact Or.inr ⟨a, Or.inl rfl, h⟩
      · exact Or.inr ⟨i, Or.inr hi, h⟩
    · rintro (h | ⟨i, hi | hi, h⟩)
      · exact Or.inl (Or.inl h)
      · exact Or.inl (Or.inr (hi ▸ h))
      · exact Or.inr ⟨i, hi, h⟩

lemma mem_driversOf {bmp : Nat → Finset Nat} {dms : Nat → DriveMovement} {l : List Nat}
    {x : Nat} : x ∈ driversOf bmp dms l ↔ ∃ i ∈ l, x ∈ bmp (dms i).drive := by
  unfold driversOf
  rw [driversOf_aux]
  simp

/-- Claim C4.  Endstop check precedes pulses: in any StepDrivers invocation
whose due prefix has the checkEndstops flag in its OR-ed segment flags, (a)
that due set is the maximal prefix of the active list whose nextStepTime has
been reached, (b) the event trace starts with the endstop check, strictly
before the step pins go high, and the pulsed driver set is recomputed from
the possibly modified active list left by CheckEndstops using the freshly
read clock now2 (masked by the enabled drivers), and (c) every pulsed driver
belongs to a drive of that recomputed due set, so a drive removed from the
active list by an endstop trigger receives no step pulse in this cycle. -/
theorem stepDrivers_endstop_check_first (bmp : Nat → Finset Nat) (enabled : Finset Nat)
    (ces : MoveSched → MoveSched) (calcNext : DriveMovement → DriveMovement)
    (now now2 : Nat) (σ : MoveSched)
    (h : (flagsOf σ.dms (dueOf σ.dms now σ.activeDMs)).checkEndstops = true) :
    (σ.activeDMs = dueOf σ.dms now σ.activeDMs
          ++ σ.activeDMs.drop (dueOf σ.dms now σ.activeDMs).length ∧
        (∀ i ∈ dueOf σ.dms now σ.activeDMs, stepDue now (σ.dms i).nextStepTime = true) ∧
        (∀ x, (σ.activeDMs.drop (dueOf σ.dms now σ.activeDMs).length).head? = some x →
          stepDue now (σ.dms x).nextStepTime = false)) ∧
      (∃ evs, (stepDrivers bmp enabled ces calcNext now now2 σ).2 =
        StepEvent.endstopCheck ::
          StepEvent.stepHigh
            (driversOf bmp (ces σ).dms (dueOf (ces σ).dms now2 (ces σ).activeDMs) ∩ enabled) ::
          StepEvent.stepLow
            (driversOf bmp (ces σ).dms (dueOf (ces σ).dms now2 (ces σ).activeDMs) ∩ enabled) ::
          evs) ∧
      (∀ x ∈ driversOf bmp (ces σ).dms (dueOf (ces σ).dms now2 (ces σ).activeDMs) ∩ enabled,
        ∃ i ∈ dueOf (ces σ).dms now2 (ces σ).activeDMs, x ∈ bmp ((ces σ).dms i).drive) := by
  obtain ⟨hsplit, hdue, hnotdue⟩ :=
    takeWhile_maximal (fun i => stepDue now (σ.dms i).nextStepTime) σ.activeDMs
  refine ⟨⟨hsplit.symm, hdue, hnotdue⟩, ?_, ?_⟩
  · refine ⟨(reinsertChain
      { dms := updateDms (ces σ).dms (dueOf (ces σ).dms now2 (ces σ).activeDMs) calcNext,
        activeDMs := (ces σ).activeDMs.drop (dueOf (ces σ).dms now2 (ces σ).activeDMs).length,
        stepErrors := (ces σ).stepErrors }
      (dueOf (ces σ).dms now2 (ces σ).activeDMs)).2, ?_⟩
    simp only [stepDrivers, stepDriversDue, h, if_true, List.singleton_append]
  · intro x hx
    exact mem_driversOf.mp (Finset.mem_inter.mp hx).1

/-- Concrete drive arena whose drives request endstop checking. -/
def dmsEndstop : Nat → DriveMovement := fun i =>
  { drive := i
    nextStepTime := 10 * i
    state := DMState.motion
    segmentFlags := { checkEndstops := true }
    direction := false
    directionChanged := false }

/-- A concrete CheckEndstops behaviour for the C4 witness: drop the head of
the active list (the triggering drive is removed). -/
def cesWitness : MoveSched → MoveSched := fun σ =>
  { σ with activeDMs := σ.activeDMs.tail }

theorem stepDrivers_endstop_check_first_witness :
    ((flagsOf dmsEndstop
        (dueOf dmsEndstop 100 [0, 1])).checkEndstops = true) ∧
      (({ dms := dmsEndstop, activeDMs := [0, 1], stepErrors := 0 } : MoveSched).activeDMs
            = dueOf dmsEndstop 100 [0, 1] ++ ([0, 1].drop (dueOf dmsEndstop 100 [0, 1]).length) ∧
          (∀ i ∈ dueOf dmsEndstop 100 [0, 1], stepDue 100 (dmsEndstop i).nextStepTime = true) ∧
          (∀ x, (([0, 1] : List Nat).drop (dueOf dmsEndstop 100 [0, 1]).length).head? = some x →
            stepDue 100 (dmsEndstop x).nextStepTime = false)) ∧
        (∃ evs, (stepDrivers (fun d => {d}) {0, 1} cesWitness id 100 100
            { dms := dmsEndstop, activeDMs := [0, 1], stepErrors := 0 }).2 =
          StepEvent.endstopCheck ::
            StepEvent.stepHigh
              (driversOf (fun d => {d})
                  (cesWitness { dms := dmsEndstop, activeDMs := [0, 1], stepErrors := 0 }).dms
                  (dueOf
                    (cesWitness { dms := dmsEndstop, activeDMs := [0, 1], stepErrors := 0 }).dms
                    100
                    (cesWitness
                      { dms := dmsEndstop, activeDMs := [0, 1], stepErrors := 0 }).activeDMs)
                ∩ {0, 1}) ::
            StepEvent.stepLow
              (driversOf (fun d => {d})
                  (cesWitness { dms := dmsEndstop, activeDMs := [0, 1], stepErrors := 0 }).dms
                  (dueOf
                    (cesWitness { dms := dmsEndstop, activeDMs := [0, 1], stepErrors := 0 }).dms
                    100
                    (cesWitness
                      { dms := dmsEndstop, activeDMs := [0, 1], stepErrors := 0 }).activeDMs)
                ∩ {0, 1}) :: evs) ∧
        (∀ x ∈ driversOf (fun d => {d})
              (cesWitness { dms := dmsEndstop, activeDMs := [0, 1], stepErrors := 0 }).dms
              (dueOf (cesWitness { dms := dmsEndstop, activeDMs := [0, 1], stepErrors := 0 }).dms
                100
                (cesWitness { dms := dmsEndstop, activeDMs := [0, 1], stepErrors := 0 }).activeDMs)
            ∩ {0, 1},
          ∃ i ∈ dueOf (cesWitness { dms := dmsEndstop, activeDMs := [0, 1], stepErrors := 0 }).dms
              100
              (cesWitness { dms := dmsEndstop, activeDMs := [0, 1], stepErrors := 0 }).activeDMs,
            x ∈ ({i} : Finset Nat)) :=
  ⟨by decide,
    stepDrivers_endstop_check_first (fun d => {d}) {0, 1} cesWitness id 100 100
      { dms := dmsEndstop, activeDMs := [0, 1], stepErrors := 0 } (by decide)⟩

lemma processDM_dms_ne (σ : MoveSched) (i j : Nat) (h : j ≠ i) :
    (processDM σ i).1.dms j = σ.dms j := by
  unfold processDM
  rcases hst : (σ.dms i).state <;>
    by_cases h2 : (σ.dms i).directionChanged = true <;>
      simp [hst, h2, Function.update_noteq h]

lemma processDM_stepErrors (σ : MoveSched) (i : Nat) :
    (processDM σ i).1.stepErrors =
      σ.stepErrors + (if (σ.dms i).state = DMState.fault then 1 else 0) := by
  unfold processDM
  rcases hst : (σ.dms i).state <;>
    by_cases h2 : (σ.dms i).directionChanged = true <;>
      simp [hst, h2]

lemma processDM_active_mem (σ : MoveSched) (i x : Nat) :
    x ∈ (processDM σ i).1.activeDMs ↔
      (x = i ∧ (σ.dms i).state = DMState.motion) ∨ x ∈ σ.activeDMs := by
  unfold processDM
  rcases hst : (σ.dms i).state <;>
    by_cases h2 : (σ.dms i).directionChanged = true <;>
      simp [hst, h2, mem_insertDM]

lemma processDM_fault_idles (σ : MoveSched) (i : Nat)
    (h : (σ.dms i).state = DMState.fault) :
    (processDM σ i).1.dms i = { σ.dms i with state := DMState.idle } ∧
      (processDM σ i).1.activeDMs = σ.activeDMs := by
  unfold processDM
  simp [h, Function.update_same]

lemma reinsertChain_active_mono (l : List Nat) :
    ∀ (σ : MoveSched) (x : Nat), x ∈ σ.activeDMs → x ∈ (reinsertChain σ l).1.activeDMs := by
  induction l with
  | nil => exact fun σ x hx => hx
  | cons i rest ih =>
    intro σ x hx
    exact ih (processDM σ i).1 x ((processDM_active_mem σ i x).mpr (Or.inr hx))

lemma reinsertChain_active_subset (l : List Nat) :
    ∀ (σ : MoveSched) (x : Nat),
      x ∈ (reinsertChain σ l).1.activeDMs → x ∈ σ.activeDMs ∨ x ∈ l := by
  induction l with
  | nil => exact fun σ x hx => Or.inl hx
  | cons i rest ih =>
    intro σ x hx
    rcases ih (processDM σ i).1 x hx with hx' | hx'
    · rcases (processDM_active_mem σ i x).mp hx' with ⟨hxi, -⟩ | hx''
      · exact Or.inr (by simp [hxi])
      · exact Or.inl hx''
    · exact Or.inr (List.mem_cons.mpr (Or.inr hx'))

lemma reinsertChain_dms_notmem (l : List Nat) :
    ∀ (σ : MoveSched) (j : Nat), j ∉ l → (reinsertChain σ l).1.dms j = σ.dms j := by
  induction l with
  | nil => exact fun σ j _ => rfl
  | cons i rest ih =>
    intro σ j hj
    have hji : j ≠ i := fun hc => hj (by simp [hc])
    have hjr : j ∉ rest := fun hc => hj (List.mem_cons.mpr (Or.inr hc))
    rw [reinsertChain]
    exact (ih (processDM σ i).1 j hjr).trans (processDM_dms_ne σ i j hji)

lemma reinsertChain_stepErrors (l : List Nat) :
    ∀ σ : MoveSched, l.Nodup →
      (reinsertChain σ l).1.stepErrors =
        σ.stepErrors + l.countP (fun i => decide ((σ.dms i).state = DMState.fault)) := by
  induction l with
  | nil => simp [reinsertChain]
  | cons i rest ih =>
    intro σ hnd
    have hnd' := (List.nodup_cons.mp hnd).2
    have hni := (List.nodup_cons.mp hnd).1
    rw [reinsertChain]
    rw [ih (processDM σ i).1 hnd']
    have hcount : rest.countP (fun j => decide (((processDM σ i).1.dms j).state = DMState.fault))
        = rest.countP (fun j => decide ((σ.dms j).state = DMState.fault)) := by
      apply List.countP_congr
      intro j hj
      rw [processDM_dms_ne σ i j (fun hc => hni (hc ▸ hj))]
    rw [hcount, processDM_stepErrors, List.countP_cons]
    simp only [decide_eq_true_eq]
    by_cases h : (σ.dms i).state = DMState.fault
    · simp only [h, if_pos rfl]
      omega
    · simp [h]

lemma reinsertChain_motion (l : List Nat) :
    ∀ (σ : MoveSched) (i : Nat), i ∈ l → (σ.dms i).state = DMState.motion →
      i ∈ (reinsertChain σ l).1.activeDMs := by
  induction l with
  | nil => intro σ i hi; cases hi
  | cons j rest ih =>
    intro σ i hi hst
    by_cases hij : i = j
    · subst hij
      rw [reinsertChain]
      exact reinsertChain_active_mono rest (processDM σ i).1 i
        ((processDM_active_mem σ i i).mpr (Or.inl ⟨rfl, hst⟩))
    · have hir : i ∈ rest := by
        rcases List.mem_cons.mp hi with hc | hc
        · exact absurd hc hij
        · exact hc
      rw [reinsertChain]
      exact ih (processDM σ j).1 i hir (by rw [processDM_dms_ne σ j i hij]; exact hst)

lemma reinsertChain_fault (l : List Nat) :
    ∀ (σ : MoveSched) (i : Nat), l.Nodup → i ∈ l → (σ.dms i).state = DMState.fault →
      i ∉ σ.activeDMs →
      ((reinsertChain σ l).1.dms i).state = DMState.idle ∧
        i ∉ (reinsertChain σ l).1.activeDMs := by
  induction l with
  | nil => intro σ i _ hi; cases hi
  | cons j rest ih =>
    intro σ i hnd hi hst hact
    have hnd' := (List.nodup_cons.mp hnd).2
    have hnj := (List.nodup_cons.mp hnd).1
    by_cases hij : i = j
    · subst hij
      have hir : i ∉ rest := hnj
      obtain ⟨hdm, hactEq⟩ := processDM_fault_idles σ i hst
      rw [reinsertChain]
      constructor
      · rw [reinsertChain_dms_notmem rest (processDM σ i).1 i hir, hdm]
      · intro hc
        rcases reinsertChain_active_subset rest (processDM σ i).1 i hc with hc' | hc'
        · rw [hactEq] at hc'
          exact hact hc'
        · exact hir hc'
    · have hir : i ∈ rest := by
        rcases List.mem_cons.mp hi with hc | hc
        · exact absurd hc hij
        · exact hc
      rw [reinsertChain]
      apply ih (processDM σ j).1 i hnd' hir
      · rw [processDM_dms_ne σ j i hij]
        exact hst
      · intro hc
        rcases (processDM_active_mem σ j i).mp hc with ⟨hc', -⟩ | hc'
        · exact hij hc'
        · exact hact hc'

/-- The scheduling tail of Move.AddLinearSegments (Move.cpp lines 1584-1614),
entered when the drive had no segments before the call (oldSegsEmpty).  The
oracle sched is DriveMovement.ScheduleFirstSegment: it rewrites the DM (next
step time, state) and reports success.  On success the DM is inserted into
the active list unless it is already a member (the walk comparing list nodes
against the DM); on failure with a non-idle state the step-error counter is
incremented and the DM is forced idle.  The hardware timer rearm and the
possible immediate re-entry into the interrupt handler on the success path
are re-entries into the scheduler, outside this function's effects. -/
def scheduleFirstSegPart (sched : DriveMovement → DriveMovement × Bool) (k : Nat)
    (σ : MoveSched) (oldSegsEmpty : Bool) : MoveSched :=
  if oldSegsEmpty then
    let r := sched (σ.dms k)
    let dms' := Function.update σ.dms k r.1
    if r.2 then
      if k ∈ σ.activeDMs then
        { dms := dms', activeDMs := σ.activeDMs, stepErrors := σ.stepErrors }
      else
        { dms := dms', activeDMs := insertDM dms' k σ.activeDMs, stepErrors := σ.stepErrors }
    else if r.1.state ≠ DMState.idle then
      { dms := Function.update dms' k { r.1 with state := DMState.idle },
        activeDMs := σ.activeDMs, stepErrors := σ.stepErrors + 1 }
    else
      { dms := dms', activeDMs := σ.activeDMs, stepErrors := σ.stepErrors }
  else σ

lemma reinsertChain_spec (σr : MoveSched) (due : List Nat)
    (hnd : due.Nodup) (hdisj : ∀ i ∈ due, i ∉ σr.activeDMs) :
    (reinsertChain σr due).1.stepErrors =
        σr.stepErrors + due.countP (fun i => decide ((σr.dms i).state = DMState.fault)) ∧
      (∀ i ∈ due, (σr.dms i).state = DMState.fault →
        ((reinsertChain σr due).1.dms i).state = DMState.idle ∧
          i ∉ (reinsertChain σr due).1.activeDMs) ∧
      (∀ i ∈ due, (σr.dms i).state = DMState.motion →
        i ∈ (reinsertChain σr due).1.activeDMs) ∧
      (∀ j ∈ σr.activeDMs, j ∈ (reinsertChain σr due).1.activeDMs) :=
  ⟨reinsertChain_stepErrors due σr hnd,
    fun i hi hst => reinsertChain_fault due σr i hnd hi hst (hdisj i hi),
    fun i hi hst => reinsertChain_motion due σr i hi hst,
    fun j hj => reinsertChain_active_mono due σr j hj⟩

/-- Claim C6.  Step errors are counted, local and non-fatal.  First part, the
reinsertion loop of StepDrivers: writing P for the state and due prefix the
invocation actually uses after the optional endstop check, and D2 for the
drive arena after the CalcNextStepTime loop, the invocation adds to the
step-error counter exactly the number of due drives found in a state that is
neither idle nor a valid motion state, forces exactly those drives idle and
keeps them out of the active list, while every due drive in a valid motion
state is reinserted and every remaining (not due) drive stays in the active
list.  Second part, the AddLinearSegments tail on a previously empty chain:
when scheduling the first segment fails and leaves the DM not idle, the
counter is incremented by one, exactly that DM is forced idle, and the active
list and all other drive records are untouched. -/
theorem step_errors_counted_local_nonfatal (bmp : Nat → Finset Nat) (enabled : Finset Nat)
    (ces : MoveSched → MoveSched) (calcNext : DriveMovement → DriveMovement)
    (now now2 : Nat) (σ : MoveSched)
    (hnd : σ.activeDMs.Nodup) (hces : (ces σ).activeDMs.Nodup) :
    ((stepDrivers bmp enabled ces calcNext now now2 σ).1.stepErrors =
        (stepDriversDue ces now now2 σ).1.stepErrors +
          (stepDriversDue ces now now2 σ).2.1.countP
            (fun i => decide
              ((updateDms (stepDriversDue ces now now2 σ).1.dms
                  (stepDriversDue ces now now2 σ).2.1 calcNext i).state = DMState.fault)) ∧
      (∀ i ∈ (stepDriversDue ces now now2 σ).2.1,
        (updateDms (stepDriversDue ces now now2 σ).1.dms
            (stepDriversDue ces now now2 σ).2.1 calcNext i).state = DMState.fault →
          ((stepDrivers bmp enabled ces calcNext now now2 σ).1.dms i).state = DMState.idle ∧
            i ∉ (stepDrivers bmp enabled ces calcNext now now2 σ).1.activeDMs) ∧
      (∀ i ∈ (stepDriversDue ces now now2 σ).2.1,
        (updateDms (stepDriversDue ces now now2 σ).1.dms
            (stepDriversDue ces now now2 σ).2.1 calcNext i).state = DMState.motion →
          i ∈ (stepDrivers bmp enabled ces calcNext now now2 σ).1.activeDMs) ∧
      (∀ j ∈ (stepDriversDue ces now now2 σ).1.activeDMs.drop
          (stepDriversDue ces now now2 σ).2.1.length,
        j ∈ (stepDrivers bmp enabled ces calcNext now now2 σ).1.activeDMs)) ∧
      (∀ (sched : DriveMovement → DriveMovement × Bool) (τ : MoveSched) (k : Nat),
        (sched (τ.dms k)).2 = false → ((sched (τ.dms k)).1).state ≠ DMState.idle →
          (scheduleFirstSegPart sched k τ true).stepErrors = τ.stepErrors + 1 ∧
            ((scheduleFirstSegPart sched k τ true).dms k).state = DMState.idle ∧
            (scheduleFirstSegPart sched k τ true).activeDMs = τ.activeDMs ∧
            (∀ j, j ≠ k → (scheduleFirstSegPart sched k τ true).dms j = τ.dms j)) := by
  constructor
  · have hP : (stepDriversDue ces now now2 σ).1.activeDMs.Nodup := by
      by_cases hflag : (flagsOf σ.dms (dueOf σ.dms now σ.activeDMs)).checkEndstops = true
      · simpa [stepDriversDue, hflag] using hces
      · simpa [stepDriversDue, hflag] using hnd
    have hdue : ∃ n, (stepDriversDue ces now now2 σ).2.1 =
        dueOf (stepDriversDue ces now now2 σ).1.dms n
          (stepDriversDue ces now now2 σ).1.activeDMs := by
      by_cases hflag : (flagsOf σ.dms (dueOf σ.dms now σ.activeDMs)).checkEndstops = true
      · exact ⟨now2, by simp [stepDriversDue, hflag]⟩
      · exact ⟨now, by simp [stepDriversDue, hflag]⟩
    obtain ⟨n, hdueEq⟩ := hdue
    have hsplit := takeWhile_maximal
      (fun i => stepDue n ((stepDriversDue ces now now2 σ).1.dms i).nextStepTime)
      (stepDriversDue ces now now2 σ).1.activeDMs
    have hndDue : (stepDriversDue ces now now2 σ).2.1.Nodup := by
      rw [hdueEq]
      exact hP.sublist (List.takeWhile_sublist _)
    have happ : (stepDriversDue ces now now2 σ).2.1 ++
        (stepDriversDue ces now now2 σ).1.activeDMs.drop
          (stepDriversDue ces now now2 σ).2.1.length =
        (stepDriversDue ces now now2 σ).1.activeDMs := by
      rw [hdueEq]
      exact hsplit.1
    have hdisj : ∀ i ∈ (stepDriversDue ces now now2 σ).2.1,
        i ∉ (stepDriversDue ces now now2 σ).1.activeDMs.drop
          (stepDriversDue ces now now2 σ).2.1.length := by
      have hndApp := happ ▸ hP
      exact fun i hi => (List.nodup_append.mp hndApp).2.2 hi
    have hspec := reinsertChain_spec
      { dms := updateDms (stepDriversDue ces now now2 σ).1.dms
          (stepDriversDue ces now now2 σ).2.1 calcNext,
        activeDMs := (stepDriversDue ces now now2 σ).1.activeDMs.drop
          (stepDriversDue ces now now2 σ).2.1.length,
        stepErrors := (stepDriversDue ces now now2 σ).1.stepErrors }
      (stepDriversDue ces now now2 σ).2.1 hndDue hdisj
    exact hspec
  · intro sched τ k hfail hstate
    refine ⟨?_, ?_, ?_, ?_⟩
    · simp [scheduleFirstSegPart, hfail, hstate]
    · simp [scheduleFirstSegPart, hfail, hstate, Function.update_same]
    · simp [scheduleFirstSegPart, hfail, hstate]
    · intro j hj
      simp [scheduleFirstSegPart, hfail, hstate, Function.update_noteq hj]

/-- Concrete arena for the C6 witness: drives 0 and 1 due at once, drive 2 due
much later. -/
def dmsSched6 : Nat → DriveMovement := fun i =>
  { drive := i
    nextStepTime := if i = 2 then 1000 else 0
    state := DMState.motion
    segmentFlags := MovementFlags.clear
    direction := false
    directionChanged := false }

/-- Concrete scheduler state for the C6 witness. -/
def schedW6 : MoveSched := { dms := dmsSched6, activeDMs := [0, 1, 2], stepErrors := 0 }

/-- Concrete CalcNextStepTime oracle for the C6 witness: drive 0 comes out of
the step-time computation in an invalid state, drive 1 stays in motion. -/
def calcW6 : DriveMovement → DriveMovement := fun dm =>
  if dm.drive = 0 then { dm with state := DMState.fault } else dm

theorem step_errors_counted_local_nonfatal_witness :
    (schedW6.activeDMs.Nodup ∧ (id schedW6 : MoveSched).activeDMs.Nodup) ∧
      (stepDrivers (fun d => {d}) {0, 1, 2} id calcW6 50 50 schedW6).1.stepErrors =
        (stepDriversDue id 50 50 schedW6).1.stepErrors +
          (stepDriversDue id 50 50 schedW6).2.1.countP
            (fun i => decide
              ((updateDms (stepDriversDue id 50 50 schedW6).1.dms
                  (stepDriversDue id 50 50 schedW6).2.1 calcW6 i).state = DMState.fault)) :=
  ⟨⟨by decide, by decide⟩,
    (step_errors_counted_local_nonfatal (fun d => {d}) {0, 1, 2} id calcW6 50 50 schedW6
      (by decide) (by decide)).1.1⟩

/-- The DDA profile fields read by AddLinearSegments.  The C++ fields are
floats; they are embedded as exact rationals, so the distance-preservation
results are exact identities of the emitted expressions (the floating-point
evaluation approximates them to within rounding). -/
structure DDAprofile where
  totalDistance : Rat
  startSpeed : Rat
  topSpeed : Rat
  acceleration : Rat
  deceleration : Rat
deriving DecidableEq, Repr

/-- Modelled from the spec where the PrepParams declaration (DDA.h) is not
among the sources: the phase distances reached at the end of acceleration and
at the start of deceleration, and the per-phase clock durations in ticks; the
code compares the clock fields against zero and casts them to uint32_t for the
segment durations, so they are embedded as naturals (a positive float clock
count is nonzero exactly when its embedded tick count is). -/
structure PrepParams where
  accelDistance : Rat
  decelStartDistance : Rat
  accelClocks : Nat
  steadyClocks : Nat
  decelClocks : Nat
deriving DecidableEq, Repr

/-- One input-shaper impulse, from the AxisShaper interface (GetImpulseDelay,
GetImpulseSize); the shaper itself is not among the sources, so the impulse
list is a parameter. -/
structure ShaperImpulse where
  delay : Nat
  size : Rat
deriving DecidableEq, Repr

/-- The arguments of one DriveMovement.AddSegment call made by
AddLinearSegments: start time and duration in ticks, and the distance, initial
speed and acceleration arguments, already scaled to steps. -/
structure SegCall where
  startTime : Nat
  duration : Nat
  distance : Rat
  u : Rat
  a : Rat
deriving DecidableEq, Repr

/-- The sequence of AddSegment calls made by Move.AddLinearSegments for one
drive (Move.cpp lines 1531-1582): compute stepsPerMm and the phase start
times and distances, then emit up to three segments per impulse (with input
shaping) or up to three segments (without), each exactly when its clock count
is nonzero.  Start-time additions are uint32 arithmetic, hence the reductions
modulo 2^32. -/
def addLinearSegmentsCalls (dda : DDAprofile) (startTime : Nat) (params : PrepParams)
    (steps : Rat) (useInputShaping : Bool) (impulses : List ShaperImpulse) : List SegCall :=
  let stepsPerMm := steps / dda.totalDistance
  let steadyStartTime := (startTime + params.accelClocks) % 2 ^ 32
  let decelStartTime := (steadyStartTime + params.steadyClocks) % 2 ^ 32
  let steadyDistance := params.decelStartDistance - params.accelDistance
  let decelDistance := dda.totalDistance - params.decelStartDistance
  if useInputShaping then
    (impulses.map fun imp =>
      let factor := imp.size * stepsPerMm
      (if params.accelClocks ≠ 0 then
        [{ startTime := (startTime + imp.delay) % 2 ^ 32, duration := params.accelClocks,
           distance := params.accelDistance * factor, u := dda.startSpeed * factor,
           a := dda.acceleration * factor }] else []) ++
      (if params.steadyClocks ≠ 0 then
        [{ startTime := (steadyStartTime + imp.delay) % 2 ^ 32, duration := params.steadyClocks,
           distance := steadyDistance * factor, u := dda.topSpeed * factor, a := 0 }] else []) ++
      (if params.decelClocks ≠ 0 then
        [{ startTime := (decelStartTime + imp.delay) % 2 ^ 32, duration := params.decelClocks,
           distance := decelDistance * factor, u := dda.topSpeed * factor,
           a := -(dda.deceleration * factor) }] else [])).flatten
  else
    (if params.accelClocks ≠ 0 then
      [{ startTime := startTime, duration := params.accelClocks,
         distance := params.accelDistance * stepsPerMm, u := dda.startSpeed * stepsPerMm,
         a := dda.acceleration * stepsPerMm }] else []) ++
    (if params.steadyClocks ≠ 0 then
      [{ startTime := steadyStartTime, duration := params.steadyClocks,
         distance := steadyDistance * stepsPerMm, u := dda.topSpeed * stepsPerMm,
         a := 0 }] else []) ++
    (if params.decelClocks ≠ 0 then
      [{ startTime := decelStartTime, duration := params.decelClocks,
         distance := decelDistance * stepsPerMm, u := dda.topSpeed * stepsPerMm,
         a := -(dda.deceleration * stepsPerMm) }] else [])

lemma phase_distance_total (dda : DDAprofile) (params : PrepParams) (f : Rat)
    (ha : params.accelClocks = 0 → params.accelDistance = 0)
    (hs : params.steadyClocks = 0 → params.decelStartDistance = params.accelDistance)
    (hd : params.decelClocks = 0 → dda.totalDistance = params.decelStartDistance) :
    (if params.accelClocks ≠ 0 then params.accelDistance * f else 0) +
        ((if params.steadyClocks ≠ 0 then
            (params.decelStartDistance - params.accelDistance) * f else 0) +
          (if params.decelClocks ≠ 0 then
            (dda.totalDistance - params.decelStartDistance) * f else 0)) =
      dda.totalDistance * f := by
  have t1 : (if params.accelClocks ≠ 0 then params.accelDistance * f else 0)
      = params.accelDistance * f := by
    by_cases h : params.accelClocks = 0
    · simp [h, ha h]
    · simp [h]
  have t2 : (if params.steadyClocks ≠ 0 then
        (params.decelStartDistance - params.accelDistance) * f else 0)
      = (params.decelStartDistance - params.accelDistance) * f := by
    by_cases h : params.steadyClocks = 0
    · simp [h, hs h]
    · simp [h]
  have t3 : (if params.decelClocks ≠ 0 then
        (dda.totalDistance - params.decelStartDistance) * f else 0)
      = (dda.totalDistance - params.decelStartDistance) * f := by
    by_cases h : params.decelClocks = 0
    · simp [h, hd h]
    · simp [h]
  rw [t1, t2, t3]
  ring

lemma sum_dist_if (c : Prop) [Decidable c] (x : SegCall) :
    (((if c then [x] else []) : List SegCall).map SegCall.distance).sum
      = if c then x.distance else 0 := by
  split <;> simp

lemma sum_map_size_mul (b : Rat) (l : List ShaperImpulse) :
    (l.map fun imp => b * imp.size).sum = b * (l.map ShaperImpulse.size).sum := by
  induction l with
  | nil => simp
  | cons i rest ih => simp [ih, mul_add]

/-- Claim C2.  Distance integral preservation: under the precondition that
every phase with nonzero distance has nonzero clock duration (equivalently, a
zero-clock phase contributes zero distance), the distance arguments of the
AddSegment calls emitted by AddLinearSegments for a drive sum to
totalDistance * stepsPerMm = steps without shaping; with input shaping the
same total is multiplied by the sum of the impulse amplitude factors, hence
equals steps again when the amplitudes sum to one.  Stated over exact
rationals, so the identity is exact; the floating-point evaluation of the same
expressions matches to within rounding. -/
theorem addLinearSegments_distance_integral (dda : DDAprofile) (params : PrepParams)
    (startTime : Nat) (steps : Rat) (impulses : List ShaperImpulse)
    (h0 : dda.totalDistance ≠ 0)
    (ha : params.accelClocks = 0 → params.accelDistance = 0)
    (hs : params.steadyClocks = 0 → params.decelStartDistance = params.accelDistance)
    (hd : params.decelClocks = 0 → dda.totalDistance = params.decelStartDistance) :
    ((addLinearSegmentsCalls dda startTime params steps false []).map SegCall.distance).sum
        = steps ∧
      ((addLinearSegmentsCalls dda startTime params steps true impulses).map
          SegCall.distance).sum
        = steps * (impulses.map ShaperImpulse.size).sum ∧
      ((impulses.map ShaperImpulse.size).sum = 1 →
        ((addLinearSegmentsCalls dda startTime params steps true impulses).map
            SegCall.distance).sum = steps) := by
  have hcancel : dda.totalDistance * (steps / dda.totalDistance) = steps := by
    rw [mul_comm]
    exact div_mul_cancel₀ steps h0
  have hplain :
      ((addLinearSegmentsCalls dda startTime params steps false []).map SegCall.distance).sum
        = steps := by
    simp only [addLinearSegmentsCalls, if_neg Bool.false_ne_true, List.map_append,
      List.sum_append, sum_dist_if]
    rw [add_assoc, phase_distance_total dda params _ ha hs hd, hcancel]
  have hshaped :
      ((addLinearSegmentsCalls dda startTime params steps true impulses).map
          SegCall.distance).sum
        = steps * (impulses.map ShaperImpulse.size).sum := by
    simp only [addLinearSegmentsCalls, if_true]
    rw [List.map_flatten, List.sum_flatten, List.map_map, List.map_map]
    have hmap :
        (impulses.map ((List.sum ∘ List.map SegCall.distance) ∘ fun imp =>
          (if params.accelClocks ≠ 0 then
            [{ startTime := (startTime + imp.delay) % 2 ^ 32, duration := params.accelClocks,
               distance := params.accelDistance * (imp.size * (steps / dda.totalDistance)),
               u := dda.startSpeed * (imp.size * (steps / dda.totalDistance)),
               a := dda.acceleration * (imp.size * (steps / dda.totalDistance)) }] else []) ++
          (if params.steadyClocks ≠ 0 then
            [{ startTime := ((startTime + params.accelClocks) % 2 ^ 32 + imp.delay) % 2 ^ 32,
               duration := params.steadyClocks,
               distance := (params.decelStartDistance - params.accelDistance) *
                 (imp.size * (steps / dda.totalDistance)),
               u := dda.topSpeed * (imp.size * (steps / dda.totalDistance)), a := 0 }] else []) ++
          (if params.decelClocks ≠ 0 then
            [{ startTime := (((startTime + params.accelClocks) % 2 ^ 32 + params.steadyClocks)
                  % 2 ^ 32 + imp.delay) % 2 ^ 32,
               duration := params.decelClocks,
               distance := (dda.totalDistance - params.decelStartDistance) *
                 (imp.size * (steps / dda.totalDistance)),
               u := dda.topSpeed * (imp.size * (steps / dda.totalDistance)),
               a := -(dda.deceleration * (imp.size * (steps / dda.totalDistance))) }] else [])))
        = impulses.map (fun imp =>
            (dda.totalDistance * (steps / dda.totalDistance)) * imp.size) := by
      apply List.map_congr_left
      intro imp _
      simp only [Function.comp_apply, List.map_append, List.sum_append, sum_dist_if]
      rw [add_assoc,
        phase_distance_total dda params (imp.size * (steps / dda.totalDistance)) ha hs hd]
      ring
    rw [hmap, sum_map_size_mul, hcancel]
  exact ⟨hplain, hshaped, fun h1 => by rw [hshaped, h1, mul_one]⟩

/-- Concrete profile for the C2 witness: a 10 unit move at 80 steps per unit,
symmetric trapezoid. -/
def ddaW : DDAprofile :=
  { totalDistance := 10, startSpeed := 0, topSpeed := 5, acceleration := 1, deceleration := 1 }

/-- Concrete phase parameters for the C2 witness. -/
def prepW : PrepParams :=
  { accelDistance := 5 / 2, decelStartDistance := 15 / 2,
    accelClocks := 100, steadyClocks := 200, decelClocks := 100 }

/-- Concrete two-impulse shaper for the C2 witness, amplitudes one half each. -/
def impsW : List ShaperImpulse := [{ delay := 0, size := 1 / 2 }, { delay := 10, size := 1 / 2 }]

theorem addLinearSegments_distance_integral_witness :
    ((ddaW.totalDistance ≠ 0) ∧ (prepW.accelClocks = 0 → prepW.accelDistance = 0) ∧
        (prepW.steadyClocks = 0 → prepW.decelStartDistance = prepW.accelDistance) ∧
        (prepW.decelClocks = 0 → ddaW.totalDistance = prepW.decelStartDistance)) ∧
      (((addLinearSegmentsCalls ddaW 0 prepW 800 false []).map SegCall.distance).sum = 800 ∧
        ((addLinearSegmentsCalls ddaW 0 prepW 800 true impsW).map SegCall.distance).sum
          = 800 * (impsW.map ShaperImpulse.size).sum ∧
        ((impsW.map ShaperImpulse.size).sum = 1 →
          ((addLinearSegmentsCalls ddaW 0 prepW 800 true impsW).map SegCall.distance).sum
            = 800)) :=
  ⟨⟨by decide, by decide, by decide, by decide⟩,
    addLinearSegments_distance_integral ddaW prepW 0 800 impsW
      (by decide) (by decide) (by decide) (by decide)⟩

/-- Claim C3.  Trapezoid segmentation without shaping: AddLinearSegments with
input shaping disabled emits at most three segments; the emitted list is
exactly the acceleration, steady and deceleration segments filtered by
nonzero clock duration, with start times startTime, startTime + accelClocks
and startTime + accelClocks + steadyClocks (uint32 arithmetic) and durations
accelClocks, steadyClocks and decelClocks; consequently every emitted segment
starts where the previous emitted one ends. -/
theorem addLinearSegments_trapezoid (dda : DDAprofile) (params : PrepParams)
    (startTime : Nat) (steps : Rat) :
    (addLinearSegmentsCalls dda startTime params steps false []).length ≤ 3 ∧
      addLinearSegmentsCalls dda startTime params steps false [] =
        (if params.accelClocks ≠ 0 then
          [{ startTime := startTime, duration := params.accelClocks,
             distance := params.accelDistance * (steps / dda.totalDistance),
             u := dda.startSpeed * (steps / dda.totalDistance),
             a := dda.acceleration * (steps / dda.totalDistance) }] else []) ++
        (if params.steadyClocks ≠ 0 then
          [{ startTime := (startTime + params.accelClocks) % 2 ^ 32,
             duration := params.steadyClocks,
             distance := (params.decelStartDistance - params.accelDistance)
               * (steps / dda.totalDistance),
             u := dda.topSpeed * (steps / dda.totalDistance), a := 0 }] else []) ++
        (if params.decelClocks ≠ 0 then
          [{ startTime := (startTime + params.accelClocks + params.steadyClocks) % 2 ^ 32,
             duration := params.decelClocks,
             distance := (dda.totalDistance - params.decelStartDistance)
               * (steps / dda.totalDistance),
             u := dda.topSpeed * (steps / dda.totalDistance),
             a := -(dda.deceleration * (steps / dda.totalDistance)) }] else []) ∧
      (addLinearSegmentsCalls dda startTime params steps false []).Chain'
        (fun s1 s2 => s2.startTime = (s1.startTime + s1.duration) % 2 ^ 32) := by
  by_cases h1 : params.accelClocks = 0 <;> by_cases h2 : params.steadyClocks = 0 <;>
    by_cases h3 : params.decelClocks = 0 <;>
      refine ⟨?_, ?_, ?_⟩ <;>
        simp [addLinearSegmentsCalls, h1, h2, h3, List.chain'_cons, Nat.mod_add_mod]

/-- Modelled from the spec: StepTimer is not among the sources.  The movement
clock lags the raw timer by the accumulated movement delay, so a movement
time t occurs at raw time t + delay; IncreaseMovementDelay grows the delay.
The rearm of the step timer for movement time t reports already-due (the true
return of ScheduleNextStepInterrupt) when t plus the current delay is not
strictly in the future of the supplied raw clock reading. -/
def scheduleAlreadyDue (nextStepTime rawNow delay : Nat) : Bool :=
  decide (nextStepTime + delay ≤ rawNow)

/-- The hiccup loop of Move.Interrupt (Move.cpp lines 1666-1694): on each
iteration add the current hiccup time to both the movement delay and the
running total to be reported to CAN expansion boards, retry the rearm against
a fresh raw clock reading from raws, and grow the hiccup time by the
increment for the next retry; stop as soon as the rearm lands strictly in the
future.  The recursion is over the supplied list of raw clock readings, so
the result is none if they are exhausted before a rearm succeeds. -/
def hiccupLoop (hiccupIncrement nextStepTime : Nat) :
    Nat → Nat → Nat → List Nat → Option (Nat × Nat)
  | _, _, _, [] => none
  | delay, inserted, hiccupTime, rawNow :: raws =>
    if scheduleAlreadyDue nextStepTime rawNow (delay + hiccupTime) then
      hiccupLoop hiccupIncrement nextStepTime (delay + hiccupTime) (inserted + hiccupTime)
        (hiccupTime + hiccupIncrement) raws
    else
      some (delay + hiccupTime, inserted + hiccupTime)

/-- The hiccup episode of Move.Interrupt: when the handler has run for at
least MoveTiming.MaxStepInterruptTime with the next step still due, bump
numHiccups once and run the hiccup loop with the initial hiccup time
(MoveTiming.HiccupTime; MoveTiming is not among the sources, so the two
timing constants are parameters).  Returns the new hiccup count, the new
movement delay, and the total hiccup time inserted in this episode. -/
def hiccupEpisode (hiccupTime0 hiccupIncrement nextStepTime delay numHiccups : Nat)
    (raws : List Nat) : Option (Nat × Nat × Nat) :=
  (hiccupLoop hiccupIncrement nextStepTime delay 0 hiccupTime0 raws).map
    (fun r => (numHiccups + 1, r.1, r.2))

lemma rangeSum_shift (h i k : Nat) :
    ((List.range (k + 2)).map (fun j => h + j * i)).sum
      = h + ((List.range (k + 1)).map (fun j => h + i + j * i)).sum := by
  rw [List.range_succ_eq_map, List.map_cons, List.map_map, List.sum_cons]
  have hmap : (List.range (k + 1)).map ((fun j => h + j * i) ∘ Nat.succ)
      = (List.range (k + 1)).map (fun j => h + i + j * i) :=
    List.map_congr_left (fun j _ => by simp only [Function.comp_apply, Nat.succ_eq_add_one]; ring)
  rw [hmap]
  simp

lemma rangeSum_pos (h i k : Nat) (hp : 0 < h) :
    0 < ((List.range (k + 1)).map (fun j => h + j * i)).sum := by
  rw [List.range_succ_eq_map, List.map_cons, List.sum_cons]
  simp only [Nat.zero_mul, Nat.add_zero]
  omega

lemma hiccupLoop_spec (hiccupIncrement nextStepTime : Nat) (raws : List Nat) :
    ∀ delay inserted hiccupTime d' ins,
      hiccupLoop hiccupIncrement nextStepTime delay inserted hiccupTime raws = some (d', ins) →
      ∃ k,
        d' = delay + ((List.range (k + 1)).map (fun j => hiccupTime + j * hiccupIncrement)).sum ∧
        ins = inserted
          + ((List.range (k + 1)).map (fun j => hiccupTime + j * hiccupIncrement)).sum ∧
        ∃ rawNow ∈ raws, scheduleAlreadyDue nextStepTime rawNow d' = false := by
  induction raws with
  | nil =>
    intro delay inserted hiccupTime d' ins h
    simp [hiccupLoop] at h
  | cons rawNow rest ih =>
    intro delay inserted hiccupTime d' ins h
    rw [hiccupLoop] at h
    by_cases hs : scheduleAlreadyDue nextStepTime rawNow (delay + hiccupTime) = true
    · rw [if_pos hs] at h
      obtain ⟨k, hd, hins, rawNow', hmem, hsched⟩ := ih _ _ _ _ _ h
      refine ⟨k + 1, ?_, ?_, rawNow', List.mem_cons.mpr (Or.inr hmem), hsched⟩
      · rw [hd, rangeSum_shift]
        omega
      · rw [hins, rangeSum_shift]
        omega
    · rw [if_neg hs] at h
      obtain ⟨hd, hins⟩ := Prod.mk.injEq _ _ _ _ ▸ Option.some.inj h
      refine ⟨0, ?_, ?_, rawNow, List.mem_cons.mpr (Or.inl rfl), ?_⟩
      · simp [← hd, List.range_succ]
      · simp [← hins, List.range_succ]
      · rw [← hd]
        exact Bool.not_eq_true _ ▸ hs

/-- Claim C5.  Hiccup recovery: whenever the hiccup episode of Move.Interrupt
terminates (the rearm eventually lands in the future), the hiccup counter is
incremented exactly once; the movement delay has been increased by the sum of
an increment sequence that starts at HiccupTime and grows by HiccupIncrement
on each retry; the total inserted delay reported to the CAN expansion boards
equals exactly that growth of the movement delay; the last rearm is strictly
in the future; and the raw time of the rescheduled next step,
nextStepTime + delay, is strictly later than before the episode. -/
theorem hiccup_recovery (hiccupTime0 hiccupIncrement nextStepTime delay numHiccups : Nat)
    (raws : List Nat) (n' d' ins : Nat) (hpos : 0 < hiccupTime0)
    (h : hiccupEpisode hiccupTime0 hiccupIncrement nextStepTime delay numHiccups raws
      = some (n', d', ins)) :
    n' = numHiccups + 1 ∧
      d' = delay + ins ∧
      delay < d' ∧
      (∃ k, ins = ((List.range (k + 1)).map (fun j => hiccupTime0 + j * hiccupIncrement)).sum) ∧
      (∃ rawNow ∈ raws, scheduleAlreadyDue nextStepTime rawNow d' = false) ∧
      nextStepTime + delay < nextStepTime + d' := by
  unfold hiccupEpisode at h
  rcases hl : hiccupLoop hiccupIncrement nextStepTime delay 0 hiccupTime0 raws with - | r
  · rw [hl, Option.map_none'] at h
    exact Option.noConfusion h
  · rw [hl, Option.map_some'] at h
    obtain ⟨hn, hrest⟩ := Prod.mk.injEq _ _ _ _ ▸ Option.some.inj h
    obtain ⟨hd, hins⟩ := Prod.mk.injEq _ _ _ _ ▸ hrest
    obtain ⟨k, hkd, hki, rawNow, hmem, hsched⟩ :=
      hiccupLoop_spec hiccupIncrement nextStepTime raws delay 0 hiccupTime0 r.1 r.2
        (by rw [hl])
    have hsumpos := rangeSum_pos hiccupTime0 hiccupIncrement k hpos
    refine ⟨hn.symm, by omega, by omega, ⟨k, by omega⟩, ⟨rawNow, hmem, by rw [← hd]; exact hsched⟩,
      by omega⟩

/-- Witness for the C5 theorem: a run needing six retries, the inserted
delays being 10, 15, 20, 25, 30, 35 ticks against a raw clock stuck at 205
with the next step at movement time 100. -/
theorem hiccup_recovery_witness :
    (0 < 10 ∧ hiccupEpisode 10 5 100 0 7 [205, 205, 205, 205, 205, 205] = some (8, 135, 135)) ∧
      (8 = 7 + 1 ∧
        135 = 0 + 135 ∧
        0 < 135 ∧
        (∃ k, 135 = ((List.range (k + 1)).map (fun j => 10 + j * 5)).sum) ∧
        (∃ rawNow ∈ [205, 205, 205, 205, 205, 205],
          scheduleAlreadyDue 100 rawNow 135 = false) ∧
        100 + 0 < 100 + 135) :=
  ⟨⟨by decide, by decide⟩,
    hiccup_recovery 10 5 100 0 7 [205, 205, 205, 205, 205, 205] 8 135 135
      (by decide) (by decide)⟩
